import Mathlib

/-!
Verification of the dns-kv repository: a client encodes a `Message {key, value}`
record with bincode + base32 (no padding), splits it into DNS-label-sized chunks
sent as AAAA queries tagged with a transaction id, and commits with an A query;
the server reassembles chunks in a shared map and pages values back out through
TXT queries in slices of at most 255 bytes.

Rust strings and byte slices are modelled as lists of byte values (`List Nat`);
`String::to_uppercase` is modelled on ASCII input by `byteUpper`.  The process
wide `HashMap<String, String>` is modelled as an association list with
`HashMap` semantics (insert replaces, remove deletes the key's entry).
-/

namespace DnsKv

/-- Byte strings: Rust `String` / `&[u8]` values as lists of byte values. -/
abbrev Str := List Nat

/-! ## Bit-level helpers for the base32 codec -/

/-- Little-endian bits of width `w` (least significant first). -/
def natToBitsLE : Nat → Nat → List Bool
  | 0, _ => []
  | w + 1, n => decide (n % 2 = 1) :: natToBitsLE w (n / 2)

/-- Value of a little-endian bit list. -/
def bitsLEToNat : List Bool → Nat
  | [] => 0
  | b :: bs => (cond b 1 0) + 2 * bitsLEToNat bs

/-- Big-endian (network order) bits of width `w`, as RFC 4648 packs them. -/
def natToBitsMSB (w n : Nat) : List Bool := (natToBitsLE w n).reverse

/-- Value of a big-endian bit list. -/
def bitsMSBToNat (bs : List Bool) : Nat := bitsLEToNat bs.reverse

/-! ## Chunking (Rust slice `chunks`) -/

/-- Fuel-driven worker for `chunksOf`; fuel at least the list length makes it
total, and structural recursion keeps it kernel-computable. -/
def chunksOfGo (k : Nat) : Nat → List α → List (List α)
  | _, [] => []
  | 0, _ :: _ => []
  | fuel + 1, a :: l => ((a :: l).take k) :: chunksOfGo k fuel ((a :: l).drop k)

/-- Rust `slice::chunks(k)`: consecutive chunks of length `k`, the last one
possibly shorter. -/
def chunksOf (k : Nat) (l : List α) : List (List α) := chunksOfGo k l.length l

/-! ## Base32 without padding (`data_encoding::BASE32_NOPAD`) -/

/-- The RFC 4648 base32 alphabet `A`..`Z` `2`..`7`, as byte values. -/
def b32alphabet : Str :=
  [65, 66, 67, 68, 69, 70, 71, 72, 73, 74, 75, 76, 77, 78, 79, 80,
   81, 82, 83, 84, 85, 86, 87, 88, 89, 90, 50, 51, 52, 53, 54, 55]

/-- `BASE32_NOPAD.encode`: bytes to big-endian bits, zero-padded to a multiple
of five bits, five bits per output symbol. -/
def b32enc (bs : Str) : Str :=
  let bits := bs.flatMap (natToBitsMSB 8)
  let padded := bits ++ List.replicate ((5 - bits.length % 5) % 5) false
  (chunksOf 5 padded).map (fun g => b32alphabet.getD (bitsMSBToNat g) 0)

/-- Value of one base32 symbol (`A`..`Z` then `2`..`7`), `none` otherwise. -/
def b32charVal (b : Nat) : Option Nat :=
  if 65 ≤ b ∧ b ≤ 90 then some (b - 65)
  else if 50 ≤ b ∧ b ≤ 55 then some (b - 50 + 26)
  else none

/-- Per-symbol decoding of a whole string, failing on any bad symbol. -/
def mapOpt (f : Nat → Option Nat) : Str → Option Str
  | [] => some []
  | a :: l =>
    match f a, mapOpt f l with
    | some b, some bs => some (b :: bs)
    | _, _ => none

/-- Bit-stream half of `BASE32_NOPAD.decode`: the whole bytes of the stream,
provided all trailing bits are zero. -/
def b32decBits (bits : List Bool) : Option Str :=
  if (bits.drop (bits.length / 8 * 8)).all (fun b => b = false) then
    some ((chunksOf 8 (bits.take (bits.length / 8 * 8))).map bitsMSBToNat)
  else none

/-- `BASE32_NOPAD.decode`: fails on a symbol outside the alphabet, on an
impossible input length, or on nonzero trailing bits. -/
def b32dec (s : Str) : Option Str :=
  match mapOpt b32charVal s with
  | none => none
  | some vals =>
    if s.length % 8 = 1 ∨ s.length % 8 = 3 ∨ s.length % 8 = 6 then none
    else b32decBits (vals.flatMap (natToBitsMSB 5))

/-! ## The `Message` record and its bincode serialization -/

/-- `dns_kv::Message { key, value }`, fields as byte strings. -/
structure Message where
  key : Str
  value : Str
  deriving DecidableEq

/-- A `u64` in little-endian bytes (bincode fixint encoding of lengths). -/
def u64le (n : Nat) : Str :=
  [n % 256, n / 256 % 256, n / 65536 % 256, n / 16777216 % 256,
   n / 4294967296 % 256, n / 1099511627776 % 256,
   n / 281474976710656 % 256, n / 72057594037927936 % 256]

/-- Read a little-endian `u64` off the front of a byte string. -/
def readU64le : Str → Option (Nat × Str)
  | b0 :: b1 :: b2 :: b3 :: b4 :: b5 :: b6 :: b7 :: rest =>
    some (b0 + 256 * b1 + 65536 * b2 + 16777216 * b3 + 4294967296 * b4 +
          1099511627776 * b5 + 281474976710656 * b6 +
          72057594037927936 * b7, rest)
  | _ => none

/-- `bincode::serialize` of a `Message`: each string is an 8-byte little-endian
length followed by its bytes. -/
def serMessage (m : Message) : Str :=
  u64le m.key.length ++ m.key ++ u64le m.value.length ++ m.value

/-- `bincode::deserialize` of a `Message` (the `bincode::deserialize` entry
point allows trailing bytes). -/
def deserMessage (bs : Str) : Option Message :=
  match readU64le bs with
  | none => none
  | some (klen, r1) =>
    if r1.length < klen then none
    else
      match readU64le (r1.drop klen) with
      | none => none
      | some (vlen, r2) =>
        if r2.length < vlen then none
        else some ⟨r1.take klen, r2.take vlen⟩

/-! ## String operations used by both sides -/

/-- `char::to_ascii_uppercase`, the ASCII case of `String::to_uppercase`. -/
def byteUpper (b : Nat) : Nat := if 97 ≤ b ∧ b ≤ 122 then b - 32 else b

/-- `String::to_uppercase` on ASCII text, bytewise. -/
def strUpper (s : Str) : Str := s.map byteUpper

/-- Rust `str::split('.')`: always at least one part, empty parts kept. -/
def splitOnDot : Str → List Str
  | [] => [[]]
  | b :: rest =>
    if b = 46 then [] :: splitOnDot rest
    else
      match splitOnDot rest with
      | p :: ps => (b :: p) :: ps
      | [] => [[b]]

/-- One lowercase hex digit. -/
def hexDigit (v : Nat) : Nat := if v < 10 then 48 + v else 87 + v

/-- Fuel-driven digit loop for `hexLower`. -/
def hexLoopGo : Nat → Nat → Str
  | 0, _ => []
  | _, 0 => []
  | fuel + 1, n + 1 => hexLoopGo fuel ((n + 1) / 16) ++ [hexDigit ((n + 1) % 16)]

/-- Rust `format ("\x7b:x\x7d", n)`: lowercase hex, no leading zeros, `0` for zero. -/
def hexLower (n : Nat) : Str := if n = 0 then [48] else hexLoopGo n n

/-- The three query types the server dispatches on (plus the rejected rest). -/
inductive QType where
  | a
  | aaaa
  | txt
  | other
  deriving DecidableEq

namespace Server

/-- The process-wide `HashMap<String, String>`, as an association list. -/
abbrev Database := List (Str × Str)

/-- `HashMap::get`-style lookup (first matching entry). -/
def dbLookup : Database → Str → Option Str
  | [], _ => none
  | kv :: rest, k => if kv.1 = k then some kv.2 else dbLookup rest k

/-- `HashMap::remove`: delete the entry for `k`. -/
def dbErase : Database → Str → Database
  | [], _ => []
  | kv :: rest, k => if kv.1 = k then dbErase rest k else kv :: dbErase rest k

/-- `HashMap::insert`: replace any entry for `k` by `(k, v)`. -/
def dbInsert (db : Database) (k v : Str) : Database := (k, v) :: dbErase db k

/-- Server `get_value`: locks the map and calls `remove`, so it returns the
entry while deleting it from the store. -/
def get_value (db : Database) (k : Str) : Option Str × Database :=
  (dbLookup db k, dbErase db k)

/-- Server `set_value`: plain insert. -/
def set_value (db : Database) (k v : Str) : Database := dbInsert db k v

/-- Server `append_value`: remove the current entry (default empty), append
`v` to it, and insert the result back. -/
def append_value (db : Database) (k v : Str) : Database :=
  dbInsert db k (((dbLookup db k).getD []) ++ v)

/-- The fixed default payload `AAAA` served for a missing TXT key. -/
def defaultValue : Str := [65, 65, 65, 65]

/-- What one query handler produces besides the new store state. -/
inductive HandlerOut where
  | replyA
  | replyAAAA
  | replyTXT (txt : Str)
  | err
  | panicked
  deriving DecidableEq

/-- `parse_a_query` (commit): uppercase the name, remove-and-read the
accumulated entry (`get_value` is remove-and-return, modelled by the
`dbLookup`/`dbErase` pair), `.unwrap()` it — a panic when absent — then
base32-decode, bincode-deserialize, and install the still-encoded text under
the uppercased message key. -/
def parse_a_query (db : Database) (qname : Str) : Database × HandlerOut :=
  let key := strUpper qname
  match dbLookup db key with
  | none => (dbErase db key, .panicked)
  | some value =>
    match b32dec value with
    | none => (dbErase db key, .err)
    | some decoded =>
      match deserMessage decoded with
      | none => (dbErase db key, .err)
      | some msg => (set_value (dbErase db key) (strUpper msg.key) value, .replyA)

/-- `parse_aaaa_query` (chunk write): uppercase the name, split on `.`; with
fewer than two parts return an error, otherwise append part 0 under part 1. -/
def parse_aaaa_query (db : Database) (qname : Str) : Database × HandlerOut :=
  let parts := splitOnDot (strUpper qname)
  if parts.length < 2 then (db, .err)
  else (append_value db (parts.getD 1 []) (parts.getD 0 []), .replyAAAA)

/-- The store/slice core of `parse_txt_query`: uppercase the name,
remove-and-read the entry (default `AAAA`), slice off at most 255 bytes, and
write any remainder back. -/
def txtStep (db : Database) (qname : Str) : Database × Str :=
  let name := strUpper qname
  let value := (dbLookup db name).getD defaultValue
  let db1 := dbErase db name
  let len := min value.length 255
  let txt := value.take len
  let remainder := value.drop len
  if remainder = [] then (db1, txt) else (set_value db1 name remainder, txt)

/-- `parse_txt_query`: the slice always fits a TXT character-string. -/
def parse_txt_query (db : Database) (qname : Str) : Database × HandlerOut :=
  let r := txtStep db qname
  (r.1, .replyTXT r.2)

/-- The `match q.qtype` dispatch in `handle_dns_query`. -/
def handleQuery (db : Database) (t : QType) (qname : Str) : Database × HandlerOut :=
  match t with
  | .a => parse_a_query db qname
  | .aaaa => parse_aaaa_query db qname
  | .txt => parse_txt_query db qname
  | .other => (db, .err)

/-- Fate of one datagram: a reply packet with the collected answers, silently
dropped after a handler error, or a panic that kills the task. -/
inductive Outcome where
  | replied (answers : List HandlerOut)
  | dropped
  | panicked
  deriving DecidableEq

/-- `handle_dns_query` over the questions of one packet: the first handler
error aborts the whole datagram before anything is sent, and a panic unwinds
the task; only a fully-answered packet is sent back. -/
def handleQs : Database → List (QType × Str) → Database × Outcome
  | db, [] => (db, .replied [])
  | db, (t, q) :: rest =>
    let r := handleQuery db t q
    match r.2 with
    | .err => (r.1, .dropped)
    | .panicked => (r.1, .panicked)
    | out =>
      match handleQs r.1 rest with
      | (db2, .replied answers) => (db2, .replied (out :: answers))
      | other2 => other2

/-- Store evolution across a sequence of single-question datagrams, in arrival
order (the client sends one question per datagram and awaits each reply). -/
def runServer (db : Database) (qs : List (QType × Str)) : Database :=
  qs.foldl (fun d tq => (handleQuery d tq.1 tq.2).1) db

/-- No byte of `s` is an ASCII lowercase letter. -/
def keyNoLower (s : Str) : Prop := ∀ b ∈ s, ¬(97 ≤ b ∧ b ≤ 122)

/-- Every key present in the store is free of ASCII lowercase letters. -/
def dbKeysUpper (db : Database) : Prop := ∀ kv ∈ db, keyNoLower kv.1

end Server

namespace Client

/-- `MAX_FQDN` from the client. -/
def MAX_FQDN : Nat := 63

/-- The transaction suffix `"." + hex id` appended to every chunk. -/
def domainSuffix (id : Nat) : Str := 46 :: hexLower id

/-- `set_value`'s payload: bincode then `BASE32_NOPAD`. -/
def encodePayload (m : Message) : Str := b32enc (serMessage m)

/-- The chunk query names `chunk ++ "." ++ hex id` produced by `set_value`,
chunk size `MAX_FQDN - domain.len()`. -/
def chunkNames (id : Nat) (m : Message) : List Str :=
  (chunksOf (MAX_FQDN - (domainSuffix id).length) (encodePayload m)).map
    (fun c => c ++ domainSuffix id)

/-- The commit query name: just the hex transaction id. -/
def commitName (id : Nat) : Str := hexLower id

/-- The full upload sequence of `set_value`: every chunk as an AAAA query, in
order, then one A query for the commit. -/
def uploadQueries (id : Nat) (m : Message) : List (QType × Str) :=
  (chunkNames id m).map (fun n => (QType.aaaa, n)) ++ [(QType.a, commitName id)]

/-- The `get_value` receive loop run against the server store: each round is
one TXT round-trip (`txtStep`), accumulating slices until one is shorter than
255 bytes; `none` when the fuel runs out. -/
def collectGo : Nat → Server.Database → Str → Option (Str × Server.Database)
  | 0, _, _ => none
  | fuel + 1, db, key =>
    let r := Server.txtStep db key
    if r.2.length < 255 then some (r.2, r.1)
    else
      match collectGo fuel r.1 key with
      | none => none
      | some (rest, db2) => some (r.2 ++ rest, db2)

/-- An answer record's rdata as the client sees it. -/
inductive RData where
  | txtRecord (strings : List Str)
  | otherRecord

/-- Result of the client's `parse_txt_response`. -/
inductive ParseResult where
  | ok (s : Str)
  | panicked
  deriving DecidableEq

/-- `parse_txt_response`: index `answers[0]` unconditionally — a panic on an
empty answer section — then concatenate the TXT strings (a non-TXT rdata
yields the empty string). -/
def parse_txt_response : List RData → ParseResult
  | [] => .panicked
  | a :: _ =>
    match a with
    | .txtRecord strings => .ok (strings.foldl (fun acc s => acc ++ s) [])
    | .otherRecord => .ok []

end Client

/-! ## Lemmas: bit lists -/

theorem bitsLEToNat_natToBitsLE (w : Nat) : ∀ n, bitsLEToNat (natToBitsLE w n) = n % 2 ^ w := by
  induction w with
  | zero => intro n; simp [natToBitsLE, bitsLEToNat, Nat.mod_one]
  | succ w ih =>
    intro n
    have hcond : (cond (decide (n % 2 = 1)) 1 0 : Nat) = n % 2 := by
      rcases Nat.mod_two_eq_zero_or_one n with h | h <;> simp [h]
    have hmul : n % (2 * 2 ^ w) = n % 2 + 2 * (n / 2 % 2 ^ w) := Nat.mod_mul
    simp only [natToBitsLE, bitsLEToNat, ih, hcond, Nat.pow_succ']
    omega

theorem natToBitsLE_length (w : Nat) : ∀ n, (natToBitsLE w n).length = w := by
  induction w with
  | zero => intro n; rfl
  | succ w ih => intro n; simp [natToBitsLE, ih]

theorem bitsLEToNat_lt (bs : List Bool) : bitsLEToNat bs < 2 ^ bs.length := by
  induction bs with
  | nil => simp [bitsLEToNat]
  | cons b bs ih =>
    have hpow : (2 : Nat) ^ (bs.length + 1) = 2 * 2 ^ bs.length := Nat.pow_succ'
    rcases b <;> simp only [bitsLEToNat, List.length_cons, hpow, cond] <;> omega

theorem natToBitsLE_bitsLEToNat (bs : List Bool) : natToBitsLE bs.length (bitsLEToNat bs) = bs := by
  induction bs with
  | nil => rfl
  | cons b bs ih =>
    rcases b with _ | _
    · show natToBitsLE (bs.length + 1) (0 + 2 * bitsLEToNat bs) = false :: bs
      have h1 : (0 + 2 * bitsLEToNat bs) % 2 = 0 := by omega
      have h2 : (0 + 2 * bitsLEToNat bs) / 2 = bitsLEToNat bs := by omega
      simp [natToBitsLE, h1, h2, ih]
    · show natToBitsLE (bs.length + 1) (1 + 2 * bitsLEToNat bs) = true :: bs
      have h1 : (1 + 2 * bitsLEToNat bs) % 2 = 1 := by omega
      have h2 : (1 + 2 * bitsLEToNat bs) / 2 = bitsLEToNat bs := by omega
      simp [natToBitsLE, h1, h2, ih]

theorem bitsMSBToNat_natToBitsMSB (w n : Nat) : bitsMSBToNat (natToBitsMSB w n) = n % 2 ^ w := by
  simp [bitsMSBToNat, natToBitsMSB, bitsLEToNat_natToBitsLE]

theorem natToBitsMSB_length (w n : Nat) : (natToBitsMSB w n).length = w := by
  simp [natToBitsMSB, natToBitsLE_length]

theorem natToBitsMSB_bitsMSBToNat (bs : List Bool) :
    natToBitsMSB bs.length (bitsMSBToNat bs) = bs := by
  have h := natToBitsLE_bitsLEToNat bs.reverse
  rw [List.length_reverse] at h
  simp [natToBitsMSB, bitsMSBToNat, h]

theorem bitsMSBToNat_lt (bs : List Bool) : bitsMSBToNat bs < 2 ^ bs.length := by
  have h := bitsLEToNat_lt bs.reverse
  rw [List.length_reverse] at h
  exact h

/-! ## Lemmas: chunking -/

theorem chunksOfGo_nil (k fuel : Nat) : chunksOfGo k fuel ([] : List α) = [] := by
  cases fuel <;> rfl

theorem chunksOfGo_flatten (k : Nat) (hk : 0 < k) :
    ∀ fuel (l : List α), l.length ≤ fuel → (chunksOfGo k fuel l).flatten = l := by
  intro fuel
  induction fuel with
  | zero =>
    intro l hl
    have : l = [] := List.length_eq_zero.mp (Nat.le_zero.mp hl)
    subst this; rfl
  | succ fuel ih =>
    intro l hl
    match l with
    | [] => rfl
    | a :: l2 =>
      have hdrop : ((a :: l2).drop k).length ≤ fuel := by
        rw [List.length_drop]
        simp only [List.length_cons] at hl ⊢
        omega
      simp only [chunksOfGo, List.flatten_cons, ih _ hdrop, List.take_append_drop]

theorem chunksOf_flatten (k : Nat) (hk : 0 < k) (l : List α) : (chunksOf k l).flatten = l :=
  chunksOfGo_flatten k hk l.length l (Nat.le_refl _)

theorem chunksOfGo_mem_length_le (k : Nat) :
    ∀ fuel (l : List α) c, c ∈ chunksOfGo k fuel l → c.length ≤ k := by
  intro fuel
  induction fuel with
  | zero =>
    intro l c hc
    cases l <;> simp [chunksOfGo] at hc
  | succ fuel ih =>
    intro l c hc
    match l with
    | [] => simp [chunksOfGo] at hc
    | a :: l2 =>
      simp only [chunksOfGo, List.mem_cons] at hc
      rcases hc with hc | hc
      · subst hc
        rw [List.length_take]
        exact Nat.min_le_left _ _
      · exact ih _ _ hc

theorem chunksOf_mem_length_le (k : Nat) (l : List α) (c : List α) (hc : c ∈ chunksOf k l) :
    c.length ≤ k :=
  chunksOfGo_mem_length_le k l.length l c hc

theorem chunksOfGo_mem_length_eq (k : Nat) (hk : 0 < k) :
    ∀ fuel (l : List α), k ∣ l.length → ∀ c ∈ chunksOfGo k fuel l, c.length = k := by
  intro fuel
  induction fuel with
  | zero =>
    intro l hdvd c hc
    cases l <;> simp [chunksOfGo] at hc
  | succ fuel ih =>
    intro l hdvd c hc
    match l with
    | [] => simp [chunksOfGo] at hc
    | a :: l2 =>
      have hlen : k ≤ (a :: l2).length := by
        rcases hdvd with ⟨m, hm⟩
        rcases m with _ | m
        · simp at hm
        · simp only [List.length_cons] at hm ⊢
          calc k ≤ k * (m + 1) := Nat.le_mul_of_pos_right k (Nat.succ_pos m)
          _ = l2.length + 1 := hm.symm
      simp only [chunksOfGo, List.mem_cons] at hc
      rcases hc with hc | hc
      · subst hc
        rw [List.length_take]
        omega
      · refine ih _ ?_ _ hc
        rw [List.length_drop]
        rcases hdvd with ⟨m, hm⟩
        rcases m with _ | m2
        · rw [Nat.mul_zero] at hm
          simp at hm
        · refine ⟨m2, ?_⟩
          rw [hm, Nat.mul_succ]
          simp

theorem chunksOfGo_length (k : Nat) (hk : 0 < k) :
    ∀ fuel m (l : List α), l.length = k * m → l.length ≤ fuel →
      (chunksOfGo k fuel l).length = m := by
  intro fuel
  induction fuel with
  | zero =>
    intro m l hm hl
    have h0 : l = [] := List.length_eq_zero.mp (Nat.le_zero.mp hl)
    subst h0
    simp only [List.length_nil] at hm
    have hm0 : m = 0 := by
      rcases Nat.mul_eq_zero.mp hm.symm with h | h <;> omega
    simp [chunksOfGo, hm0]
  | succ fuel ih =>
    intro m l hm hl
    match l with
    | [] =>
      simp only [List.length_nil] at hm
      have hm0 : m = 0 := by
        rcases Nat.mul_eq_zero.mp hm.symm with h | h <;> omega
      simp [chunksOfGo, hm0]
    | a :: l2 =>
      rcases m with _ | m2
      · rw [Nat.mul_zero] at hm
        simp at hm
      · simp only [chunksOfGo, List.length_cons]
        have hdl : ((a :: l2).drop k).length = k * m2 := by
          rw [List.length_drop, hm, Nat.mul_succ]
          simp
        have hdf : ((a :: l2).drop k).length ≤ fuel := by
          rw [List.length_drop]
          simp only [List.length_cons] at hl ⊢
          omega
        rw [ih m2 _ hdl hdf]

theorem chunksOfGo_of_flatten (k : Nat) (hk : 0 < k) (gs : List (List α))
    (hg : ∀ g ∈ gs, g.length = k) :
    ∀ fuel, gs.flatten.length ≤ fuel → chunksOfGo k fuel gs.flatten = gs := by
  induction gs with
  | nil => intro fuel hf; simp [chunksOfGo_nil]
  | cons g gs ih =>
    intro fuel hf
    have hgk : g.length = k := hg g (List.mem_cons_self g gs)
    have hgs : ∀ x ∈ gs, x.length = k := fun x hx => hg x (List.mem_cons_of_mem g hx)
    have hne : g ++ gs.flatten ≠ [] := by
      intro hcon
      have : g = [] := List.append_eq_nil.mp hcon |>.1
      rw [this] at hgk
      simp at hgk
      omega
    rcases fuel with _ | fuel
    · exfalso
      simp only [List.flatten_cons] at hf
      have := List.length_eq_zero.mp (Nat.le_zero.mp hf)
      exact hne this
    · rcases hgg : g ++ gs.flatten with _ | ⟨a, rest⟩
      · exact absurd hgg hne
      · have hstep : chunksOfGo k (fuel + 1) (g ++ gs.flatten) =
            ((g ++ gs.flatten).take k) :: chunksOfGo k fuel ((g ++ gs.flatten).drop k) := by
          rw [hgg]
          rfl
        rw [List.flatten_cons, hstep, List.take_left' hgk, List.drop_left' hgk]
        congr 1
        refine ih hgs fuel ?_
        simp only [List.flatten_cons, List.length_append] at hf
        omega

theorem chunksOf_of_flatten (k : Nat) (hk : 0 < k) (gs : List (List α))
    (hg : ∀ g ∈ gs, g.length = k) : chunksOf k gs.flatten = gs :=
  chunksOfGo_of_flatten k hk gs hg _ (Nat.le_refl _)

theorem chunksOfGo_ne_nil (k fuel : Nat) (a : α) (l : List α) (hf : 0 < fuel) :
    chunksOfGo k fuel (a :: l) ≠ [] := by
  rcases fuel with _ | fuel
  · omega
  · simp [chunksOfGo]

theorem chunksOfGo_mem_subset (k : Nat) :
    ∀ fuel (l : List α) c, c ∈ chunksOfGo k fuel l → ∀ b ∈ c, b ∈ l := by
  intro fuel
  induction fuel with
  | zero =>
    intro l c hc
    cases l <;> simp [chunksOfGo] at hc
  | succ fuel ih =>
    intro l c hc b hb
    match l with
    | [] => simp [chunksOfGo] at hc
    | a :: l2 =>
      simp only [chunksOfGo, List.mem_cons] at hc
      rcases hc with hc | hc
      · subst hc
        exact List.take_subset _ _ hb
      · exact List.drop_subset _ _ (ih _ _ hc b hb)

theorem chunksOf_mem_length_eq (k : Nat) (hk : 0 < k) (l : List α) (hd : k ∣ l.length) :
    ∀ c ∈ chunksOf k l, c.length = k :=
  chunksOfGo_mem_length_eq k hk l.length l hd

theorem chunksOf_length (k : Nat) (hk : 0 < k) (m : Nat) (l : List α) (hm : l.length = k * m) :
    (chunksOf k l).length = m :=
  chunksOfGo_length k hk l.length m l hm (Nat.le_refl _)

/-! ## Lemmas: base32 round trip -/

theorem b32charVal_alphabet : ∀ v < 32, b32charVal (b32alphabet.getD v 0) = some v := by decide

theorem b32alphabet_upper_small :
    ∀ v < 32, byteUpper (b32alphabet.getD v 0) = b32alphabet.getD v 0 := by decide

theorem b32alphabet_getD_upper (v : Nat) :
    byteUpper (b32alphabet.getD v 0) = b32alphabet.getD v 0 := by
  rcases Nat.lt_or_ge v 32 with hv | hv
  · exact b32alphabet_upper_small v hv
  · rw [List.getD_eq_default]
    · rfl
    · have h32 : b32alphabet.length = 32 := rfl
      omega

theorem b32alphabet_ne_dot_small : ∀ v < 32, b32alphabet.getD v 0 ≠ 46 := by decide

theorem b32alphabet_getD_ne_dot (v : Nat) : b32alphabet.getD v 0 ≠ 46 := by
  rcases Nat.lt_or_ge v 32 with hv | hv
  · exact b32alphabet_ne_dot_small v hv
  · rw [List.getD_eq_default]
    · decide
    · have h32 : b32alphabet.length = 32 := rfl
      omega

theorem map_eq_self (l : List Nat) (f : Nat → Nat) (h : ∀ b ∈ l, f b = b) : l.map f = l := by
  have h2 : ∀ b ∈ l, f b = id b := h
  rw [List.map_congr_left h2, List.map_id]

theorem flatMap_length8 (bs : Str) : (bs.flatMap (natToBitsMSB 8)).length = 8 * bs.length := by
  induction bs with
  | nil => rfl
  | cons b bs ih =>
    simp only [List.flatMap_cons, List.length_append, natToBitsMSB_length, ih, List.length_cons]
    omega

theorem mapOpt_enc (gs : List (List Bool)) (hg : ∀ g ∈ gs, g.length = 5) :
    mapOpt b32charVal (gs.map fun g => b32alphabet.getD (bitsMSBToNat g) 0) =
      some (gs.map bitsMSBToNat) := by
  induction gs with
  | nil => rfl
  | cons g gs ih =>
    have hgl : g.length = 5 := hg g (List.mem_cons_self g gs)
    have hlt : bitsMSBToNat g < 32 := by
      have h2 := bitsMSBToNat_lt g
      rw [hgl] at h2
      simpa using h2
    have hcv : b32charVal (b32alphabet.getD (bitsMSBToNat g) 0) = some (bitsMSBToNat g) :=
      b32charVal_alphabet (bitsMSBToNat g) hlt
    simp only [List.map_cons, mapOpt, hcv,
      ih (fun x hx => hg x (List.mem_cons_of_mem g hx))]

theorem flatMap_msb5 (gs : List (List Bool)) (hg : ∀ g ∈ gs, g.length = 5) :
    (gs.map bitsMSBToNat).flatMap (natToBitsMSB 5) = gs.flatten := by
  induction gs with
  | nil => rfl
  | cons g gs ih =>
    have hgl : g.length = 5 := hg g (List.mem_cons_self g gs)
    simp only [List.map_cons, List.flatMap_cons, List.flatten_cons,
      ih (fun x hx => hg x (List.mem_cons_of_mem g hx))]
    congr 1
    rw [← hgl]
    exact natToBitsMSB_bitsMSBToNat g

theorem chunks_bytes (bs : Str) (h : ∀ b ∈ bs, b < 256) :
    (chunksOf 8 (bs.flatMap (natToBitsMSB 8))).map bitsMSBToNat = bs := by
  rw [List.flatMap_def]
  rw [chunksOf_of_flatten 8 (by norm_num) (bs.map (natToBitsMSB 8)) ?hlen]
  case hlen =>
    intro g hg
    rcases List.mem_map.mp hg with ⟨b, hb, rfl⟩
    exact natToBitsMSB_length 8 b
  rw [List.map_map]
  refine map_eq_self bs _ ?_
  intro b hb
  simp only [Function.comp_apply]
  rw [bitsMSBToNat_natToBitsMSB, show (2 : Nat) ^ 8 = 256 from by norm_num]
  exact Nat.mod_eq_of_lt (h b hb)

theorem b32dec_some (s : Str) (vals : Str) (hm : mapOpt b32charVal s = some vals)
    (hlen : ¬(s.length % 8 = 1 ∨ s.length % 8 = 3 ∨ s.length % 8 = 6)) :
    b32dec s = b32decBits (vals.flatMap (natToBitsMSB 5)) := by
  unfold b32dec
  split
  · next heq => rw [hm] at heq; cases heq
  · next vals2 heq =>
    rw [hm] at heq
    injection heq with h2
    subst h2
    rw [if_neg hlen]

theorem b32decBits_padded (bs : Str) (p : Nat) (hp : p < 8) (h : ∀ b ∈ bs, b < 256) :
    b32decBits (bs.flatMap (natToBitsMSB 8) ++ List.replicate p false) = some bs := by
  have hbl : (bs.flatMap (natToBitsMSB 8)).length = 8 * bs.length := flatMap_length8 bs
  have hlen : (bs.flatMap (natToBitsMSB 8) ++ List.replicate p false).length =
      8 * bs.length + p := by
    simp [hbl]
  have hdiv : (8 * bs.length + p) / 8 * 8 = 8 * bs.length := by omega
  have htake : (bs.flatMap (natToBitsMSB 8) ++ List.replicate p false).take (8 * bs.length) =
      bs.flatMap (natToBitsMSB 8) := List.take_left' hbl
  have hdrop : (bs.flatMap (natToBitsMSB 8) ++ List.replicate p false).drop (8 * bs.length) =
      List.replicate p false := List.drop_left' hbl
  have hall : (List.replicate p false).all (fun b => b = false) = true := by
    simp [List.all_eq_true]
  unfold b32decBits
  rw [hlen, hdiv, htake, hdrop, if_pos hall, chunks_bytes bs h]

theorem b32dec_b32enc (bs : Str) (h : ∀ b ∈ bs, b < 256) : b32dec (b32enc bs) = some bs := by
  have h5 : (0 : Nat) < 5 := by norm_num
  have hbl : (bs.flatMap (natToBitsMSB 8)).length = 8 * bs.length := flatMap_length8 bs
  have hplt : (5 - (bs.flatMap (natToBitsMSB 8)).length % 5) % 5 < 8 := by omega
  have hpad : (bs.flatMap (natToBitsMSB 8) ++
      List.replicate ((5 - (bs.flatMap (natToBitsMSB 8)).length % 5) % 5) false).length =
      8 * bs.length + (5 - (8 * bs.length) % 5) % 5 := by
    simp [hbl]
  have hdvd : (5 : Nat) ∣ (bs.flatMap (natToBitsMSB 8) ++
      List.replicate ((5 - (bs.flatMap (natToBitsMSB 8)).length % 5) % 5) false).length := by
    refine Nat.dvd_of_mod_eq_zero ?_
    rw [hpad]
    omega
  have hglen : ∀ g ∈ chunksOf 5 (bs.flatMap (natToBitsMSB 8) ++
      List.replicate ((5 - (bs.flatMap (natToBitsMSB 8)).length % 5) % 5) false),
      g.length = 5 :=
    chunksOf_mem_length_eq 5 h5 _ hdvd
  have henc : b32enc bs = (chunksOf 5 (bs.flatMap (natToBitsMSB 8) ++
      List.replicate ((5 - (bs.flatMap (natToBitsMSB 8)).length % 5) % 5) false)).map
      (fun g => b32alphabet.getD (bitsMSBToNat g) 0) := rfl
  have hmap := mapOpt_enc _ hglen
  have hcount : (chunksOf 5 (bs.flatMap (natToBitsMSB 8) ++
      List.replicate ((5 - (bs.flatMap (natToBitsMSB 8)).length % 5) % 5) false)).length =
      (8 * bs.length + (5 - (8 * bs.length) % 5) % 5) / 5 := by
    refine chunksOf_length 5 h5 _ _ ?_
    rw [hpad]
    omega
  have hslen : ¬((b32enc bs).length % 8 = 1 ∨ (b32enc bs).length % 8 = 3 ∨
      (b32enc bs).length % 8 = 6) := by
    rw [henc, List.length_map, hcount]
    omega
  rw [b32dec_some (b32enc bs) _ (by rw [henc]; exact hmap) hslen]
  rw [flatMap_msb5 _ hglen]
  rw [chunksOf_flatten 5 h5]
  exact b32decBits_padded bs _ hplt h

/-! ## Lemmas: bincode round trip -/

theorem u64le_bytes (n : Nat) : ∀ b ∈ u64le n, b < 256 := by
  intro b hb
  simp only [u64le, List.mem_cons, List.not_mem_nil, or_false] at hb
  rcases hb with h | h | h | h | h | h | h | h <;> subst h <;>
    exact Nat.mod_lt _ (by norm_num)

theorem serMessage_bytes (m : Message) (hk : ∀ b ∈ m.key, b < 256)
    (hv : ∀ b ∈ m.value, b < 256) : ∀ b ∈ serMessage m, b < 256 := by
  intro b hb
  simp only [serMessage, List.append_assoc, List.mem_append] at hb
  rcases hb with hb | hb | hb | hb
  · exact u64le_bytes _ _ hb
  · exact hk b hb
  · exact u64le_bytes _ _ hb
  · exact hv b hb

theorem readU64le_append (n : Nat) (hn : n < 18446744073709551616) (rest : Str) :
    readU64le (u64le n ++ rest) = some (n, rest) := by
  simp only [u64le, List.cons_append, List.nil_append, readU64le, Option.some.injEq,
    Prod.mk.injEq]
  exact ⟨by omega, trivial⟩

theorem deserMessage_serMessage (m : Message)
    (hk : m.key.length < 18446744073709551616)
    (hv : m.value.length < 18446744073709551616) :
    deserMessage (serMessage m) = some m := by
  have h1 : serMessage m =
      u64le m.key.length ++ (m.key ++ (u64le m.value.length ++ m.value)) := by
    simp [serMessage, List.append_assoc]
  have hr1 : (m.key ++ (u64le m.value.length ++ m.value)).length =
      m.key.length + (8 + m.value.length) := by
    simp [u64le]
    omega
  have htake1 : (m.key ++ (u64le m.value.length ++ m.value)).take m.key.length = m.key :=
    List.take_left' rfl
  have hdrop1 : (m.key ++ (u64le m.value.length ++ m.value)).drop m.key.length =
      u64le m.value.length ++ m.value := List.drop_left' rfl
  have hcond1 : ¬(m.key ++ (u64le m.value.length ++ m.value)).length < m.key.length := by
    rw [hr1]
    omega
  have hcond2 : ¬m.value.length < m.value.length := by omega
  rw [h1]
  unfold deserMessage
  rw [readU64le_append _ hk]
  simp only
  rw [if_neg hcond1]
  rw [hdrop1, readU64le_append _ hv]
  simp only
  rw [if_neg hcond2, htake1, List.take_length]

theorem bincode_b32_roundtrip (m : Message) (hkb : ∀ b ∈ m.key, b < 256)
    (hvb : ∀ b ∈ m.value, b < 256)
    (hk : m.key.length < 18446744073709551616)
    (hv : m.value.length < 18446744073709551616) :
    (b32dec (b32enc (serMessage m))).bind deserMessage = some m := by
  rw [b32dec_b32enc _ (serMessage_bytes m hkb hvb), Option.some_bind]
  exact deserMessage_serMessage m hk hv

/-! ## Lemmas: uppercase, split, hex -/

theorem byteUpper_eq_dot (b : Nat) : byteUpper b = 46 ↔ b = 46 := by
  unfold byteUpper
  split <;> omega

theorem byteUpper_not_lower (b : Nat) : ¬(97 ≤ byteUpper b ∧ byteUpper b ≤ 122) := by
  unfold byteUpper
  split <;> omega

theorem strUpper_append (s t : Str) : strUpper (s ++ t) = strUpper s ++ strUpper t :=
  List.map_append byteUpper s t

theorem strUpper_cons (b : Nat) (s : Str) : strUpper (b :: s) = byteUpper b :: strUpper s := rfl

theorem strUpper_not_mem_dot (s : Str) (h : 46 ∉ s) : 46 ∉ strUpper s := by
  intro hmem
  rcases List.mem_map.mp hmem with ⟨b, hb, hup⟩
  exact h ((byteUpper_eq_dot b).mp hup ▸ hb)

theorem strUpper_b32enc (bs : Str) : strUpper (b32enc bs) = b32enc bs := by
  refine map_eq_self _ _ ?_
  intro b hb
  rcases List.mem_map.mp hb with ⟨g, hg, rfl⟩
  exact b32alphabet_getD_upper _

theorem b32enc_not_mem_dot (bs : Str) : 46 ∉ b32enc bs := by
  intro hmem
  rcases List.mem_map.mp hmem with ⟨g, hg, hb⟩
  exact b32alphabet_getD_ne_dot _ hb

theorem splitOnDot_ne_nil (s : Str) : splitOnDot s ≠ [] := by
  match s with
  | [] => simp [splitOnDot]
  | b :: rest =>
    unfold splitOnDot
    split
    · simp
    · split <;> simp

theorem splitOnDot_no_dot (s : Str) (h : 46 ∉ s) : splitOnDot s = [s] := by
  induction s with
  | nil => rfl
  | cons b rest ih =>
    have hb : b ≠ 46 := fun hc => h (hc ▸ List.mem_cons_self b rest)
    have hrest : 46 ∉ rest := fun hc => h (List.mem_cons_of_mem b hc)
    unfold splitOnDot
    rw [if_neg hb, ih hrest]

theorem splitOnDot_cons_dot (rest : Str) : splitOnDot (46 :: rest) = [] :: splitOnDot rest := by
  conv_lhs => unfold splitOnDot
  rw [if_pos rfl]

theorem splitOnDot_cons_ne (b : Nat) (rest : Str) (hb : b ≠ 46) :
    splitOnDot (b :: rest) =
      match splitOnDot rest with
      | p :: ps => (b :: p) :: ps
      | [] => [[b]] := by
  conv_lhs => unfold splitOnDot
  rw [if_neg hb]

theorem splitOnDot_append_dot (s t : Str) (h : 46 ∉ s) :
    splitOnDot (s ++ 46 :: t) = s :: splitOnDot t := by
  induction s with
  | nil =>
    show splitOnDot (46 :: t) = [] :: splitOnDot t
    exact splitOnDot_cons_dot t
  | cons b rest ih =>
    have hb : b ≠ 46 := fun hc => h (hc ▸ List.mem_cons_self b rest)
    have hrest : 46 ∉ rest := fun hc => h (List.mem_cons_of_mem b hc)
    show splitOnDot (b :: (rest ++ 46 :: t)) = (b :: rest) :: splitOnDot t
    rw [splitOnDot_cons_ne b _ hb, ih hrest]

theorem splitOnDot_mem_subset (s : Str) : ∀ p ∈ splitOnDot s, ∀ b ∈ p, b ∈ s := by
  induction s with
  | nil =>
    intro p hp b hb
    simp only [splitOnDot, List.mem_singleton] at hp
    subst hp
    simp at hb
  | cons c rest ih =>
    intro p hp b hb
    unfold splitOnDot at hp
    by_cases hc : c = 46
    · rw [if_pos hc] at hp
      rcases List.mem_cons.mp hp with hp | hp
      · subst hp
        simp at hb
      · exact List.mem_cons_of_mem c (ih p hp b hb)
    · rw [if_neg hc] at hp
      rcases hsplit : splitOnDot rest with _ | ⟨p2, ps⟩
      · exact absurd hsplit (splitOnDot_ne_nil rest)
      · rw [hsplit] at hp
        rcases List.mem_cons.mp hp with hp | hp
        · subst hp
          rcases List.mem_cons.mp hb with hb | hb
          · exact hb ▸ List.mem_cons_self c rest
          · refine List.mem_cons_of_mem c (ih p2 ?_ b hb)
            rw [hsplit]
            exact List.mem_cons_self p2 ps
        · refine List.mem_cons_of_mem c (ih p ?_ b hb)
          rw [hsplit]
          exact List.mem_cons_of_mem p2 hp

theorem hexDigit_ne_dot (v : Nat) : hexDigit v ≠ 46 := by
  unfold hexDigit
  split <;> omega

theorem hexLoopGo_not_mem_dot : ∀ fuel n, 46 ∉ hexLoopGo fuel n := by
  intro fuel
  induction fuel with
  | zero => intro n; simp [hexLoopGo]
  | succ fuel ih =>
    intro n
    match n with
    | 0 => simp [hexLoopGo]
    | n + 1 =>
      unfold hexLoopGo
      intro hmem
      rcases List.mem_append.mp hmem with h | h
      · exact ih _ h
      · simp only [List.mem_singleton] at h
        exact hexDigit_ne_dot _ h.symm

theorem hexLower_not_mem_dot (n : Nat) : 46 ∉ hexLower n := by
  unfold hexLower
  split
  · simp
  · exact hexLoopGo_not_mem_dot n n

theorem hexLoopGo_length_le : ∀ fuel n k, n < 16 ^ k → (hexLoopGo fuel n).length ≤ k := by
  intro fuel
  induction fuel with
  | zero => intro n k hn; simp [hexLoopGo]
  | succ fuel ih =>
    intro n k hn
    match n with
    | 0 => simp [hexLoopGo]
    | n + 1 =>
      rcases k with _ | k2
      · simp at hn
      · unfold hexLoopGo
        rw [List.length_append]
        have hdiv : (n + 1) / 16 < 16 ^ k2 := by
          rw [Nat.div_lt_iff_lt_mul (by norm_num)]
          calc n + 1 < 16 ^ (k2 + 1) := hn
          _ = 16 ^ k2 * 16 := Nat.pow_succ 16 k2
        have := ih ((n + 1) / 16) k2 hdiv
        simp only [List.length_singleton]
        omega

theorem hexLower_length_le (n : Nat) (hn : n < 65536) : (hexLower n).length ≤ 4 := by
  unfold hexLower
  split
  · simp
  · exact hexLoopGo_length_le n n 4 (by omega)

/-! ## Lemmas: the store -/

namespace Server

theorem dbLookup_erase_self (db : Database) (k : Str) : dbLookup (dbErase db k) k = none := by
  induction db with
  | nil => rfl
  | cons kv rest ih =>
    by_cases h : kv.1 = k
    · simp [dbErase, h, ih]
    · simp [dbErase, dbLookup, h, ih]

theorem dbLookup_erase_ne (db : Database) (k k2 : Str) (h : k2 ≠ k) :
    dbLookup (dbErase db k) k2 = dbLookup db k2 := by
  induction db with
  | nil => rfl
  | cons kv rest ih =>
    by_cases hkv : kv.1 = k
    · have hne : kv.1 ≠ k2 := fun hc => h (hc.symm.trans hkv)
      simp only [dbErase, if_pos hkv, dbLookup, if_neg hne, ih]
    · by_cases hkv2 : kv.1 = k2
      · simp only [dbErase, if_neg hkv, dbLookup, if_pos hkv2]
      · simp only [dbErase, if_neg hkv, dbLookup, if_neg hkv2, ih]

theorem dbLookup_insert_self (db : Database) (k v : Str) :
    dbLookup (dbInsert db k v) k = some v := by
  simp [dbInsert, dbLookup]

theorem dbLookup_insert_ne (db : Database) (k v k2 : Str) (h : k2 ≠ k) :
    dbLookup (dbInsert db k v) k2 = dbLookup db k2 := by
  have hne : ¬(k = k2) := fun hc => h hc.symm
  simp only [dbInsert, dbLookup, if_neg hne]
  exact dbLookup_erase_ne db k k2 h

theorem dbErase_absent (db : Database) (k : Str) (h : dbLookup db k = none) :
    dbErase db k = db := by
  induction db with
  | nil => rfl
  | cons kv rest ih =>
    by_cases hkv : kv.1 = k
    · simp [dbLookup, hkv] at h
    · simp only [dbLookup, if_neg hkv] at h
      simp [dbErase, hkv, ih h]

/-! ## Lemmas: the query handlers -/

theorem parse_a_query_panic (db : Database) (qname : Str)
    (h : dbLookup db (strUpper qname) = none) :
    parse_a_query db qname = (db, .panicked) := by
  simp only [parse_a_query, h]
  rw [dbErase_absent db _ h]

theorem parse_a_query_decode_err (db : Database) (qname v : Str)
    (hlk : dbLookup db (strUpper qname) = some v)
    (hdec : (b32dec v).bind deserMessage = none) :
    parse_a_query db qname = (dbErase db (strUpper qname), .err) := by
  rcases hb : b32dec v with _ | d
  · simp only [parse_a_query, hlk, hb]
  · rw [hb, Option.some_bind] at hdec
    simp only [parse_a_query, hlk, hb, hdec]

theorem parse_a_query_ok (db : Database) (qname v d : Str) (m : Message)
    (hlk : dbLookup db (strUpper qname) = some v)
    (hdec : b32dec v = some d)
    (hdeser : deserMessage d = some m) :
    parse_a_query db qname =
      (set_value (dbErase db (strUpper qname)) (strUpper m.key) v, .replyA) := by
  simp only [parse_a_query, hlk, hdec, hdeser]

theorem parse_aaaa_chunk (db : Database) (c t : Str) (hc : 46 ∉ c) (hcup : strUpper c = c)
    (ht : 46 ∉ t) :
    parse_aaaa_query db (c ++ 46 :: t) = (append_value db (strUpper t) c, .replyAAAA) := by
  have hsplit : splitOnDot (strUpper (c ++ 46 :: t)) = c :: [strUpper t] := by
    rw [strUpper_append, strUpper_cons, show byteUpper 46 = 46 from rfl, hcup,
      splitOnDot_append_dot c _ hc, splitOnDot_no_dot _ (strUpper_not_mem_dot t ht)]
  simp only [parse_aaaa_query, hsplit]
  rw [if_neg (by simp)]
  rfl

theorem parse_aaaa_malformed (db : Database) (qname : Str)
    (h : (splitOnDot (strUpper qname)).length < 2) :
    parse_aaaa_query db qname = (db, .err) := by
  simp only [parse_aaaa_query]
  rw [if_pos h]

theorem parse_aaaa_wellformed (db : Database) (qname : Str)
    (h : ¬(splitOnDot (strUpper qname)).length < 2) :
    parse_aaaa_query db qname =
      (append_value db ((splitOnDot (strUpper qname)).getD 1 [])
        ((splitOnDot (strUpper qname)).getD 0 []), .replyAAAA) := by
  simp only [parse_aaaa_query]
  rw [if_neg h]

theorem txtStep_absent (db : Database) (qname : Str)
    (h : dbLookup db (strUpper qname) = none) :
    txtStep db qname = (db, defaultValue) := by
  simp only [txtStep, h, Option.getD_none]
  norm_num [defaultValue]
  exact dbErase_absent db _ h

theorem txtStep_present (db : Database) (qname v : Str)
    (hlk : dbLookup db (strUpper qname) = some v) :
    txtStep db qname =
      (if v.drop (min v.length 255) = [] then dbErase db (strUpper qname)
       else set_value (dbErase db (strUpper qname)) (strUpper qname)
         (v.drop (min v.length 255)),
       v.take (min v.length 255)) := by
  simp only [txtStep, hlk, Option.getD_some]
  by_cases hrem : v.drop (min v.length 255) = []
  · rw [if_pos hrem, if_pos hrem]
  · rw [if_neg hrem, if_neg hrem]

theorem runServer_nil (db : Database) : runServer db [] = db := rfl

theorem runServer_cons (db : Database) (t : QType) (q : Str) (qs : List (QType × Str)) :
    runServer db ((t, q) :: qs) = runServer (handleQuery db t q).1 qs := rfl

theorem runServer_append (db : Database) (qs1 qs2 : List (QType × Str)) :
    runServer db (qs1 ++ qs2) = runServer (runServer db qs1) qs2 := by
  unfold runServer
  exact List.foldl_append _ _ _ _

end Server

/-! ## Lemmas: the upload pipeline -/

theorem chunksOf_ne_nil (k : Nat) (l : List α) (h : l ≠ []) : chunksOf k l ≠ [] := by
  match l with
  | [] => exact absurd rfl h
  | a :: l2 => exact chunksOfGo_ne_nil k _ a l2 (by simp)

theorem b32enc_ne_nil (bs : Str) (h : bs ≠ []) : b32enc bs ≠ [] := by
  intro hc
  simp only [b32enc] at hc
  rw [List.map_eq_nil_iff] at hc
  refine chunksOf_ne_nil 5 _ ?_ hc
  intro hc2
  have hlen := congrArg List.length hc2
  simp only [List.length_append, flatMap_length8, List.length_replicate,
    List.length_nil] at hlen
  have hlen0 : bs.length ≠ 0 := fun hz => h (List.length_eq_zero.mp hz)
  omega

theorem serMessage_ne_nil (m : Message) : serMessage m ≠ [] := by
  simp [serMessage, u64le]

theorem b32enc_chunk_props (k : Nat) (bs : Str) :
    ∀ c ∈ chunksOf k (b32enc bs), 46 ∉ c ∧ strUpper c = c := by
  intro c hc
  have hsub : ∀ b ∈ c, b ∈ b32enc bs := chunksOfGo_mem_subset k _ _ c hc
  constructor
  · exact fun hmem => b32enc_not_mem_dot bs (hsub 46 hmem)
  · refine map_eq_self _ _ ?_
    intro b hb
    rcases List.mem_map.mp (hsub b hb) with ⟨g, hg, hb2⟩
    rw [← hb2]
    exact b32alphabet_getD_upper _

theorem runServer_chunks (t : Str) (ht : 46 ∉ t) :
    ∀ cs : List Str, (∀ c ∈ cs, 46 ∉ c ∧ strUpper c = c) → cs ≠ [] →
    ∀ db : Server.Database,
      Server.dbLookup
        (Server.runServer db (cs.map fun c => (QType.aaaa, c ++ 46 :: t)))
        (strUpper t) =
      some ((Server.dbLookup db (strUpper t)).getD [] ++ cs.flatten) := by
  intro cs
  induction cs with
  | nil => intro _ hne _; exact absurd rfl hne
  | cons c cs ih =>
    intro hcs hne db
    rcases hcs c (List.mem_cons_self c cs) with ⟨hc46, hcup⟩
    have hstep : Server.handleQuery db QType.aaaa (c ++ 46 :: t) =
        (Server.append_value db (strUpper t) c, Server.HandlerOut.replyAAAA) :=
      Server.parse_aaaa_chunk db c t hc46 hcup ht
    rcases Decidable.em (cs = []) with hcs0 | hcs0
    · subst hcs0
      simp only [List.map_cons, List.map_nil]
      rw [Server.runServer_cons, hstep]
      show Server.dbLookup (Server.append_value db (strUpper t) c) (strUpper t) = _
      rw [Server.append_value, Server.dbLookup_insert_self]
      simp
    · simp only [List.map_cons]
      rw [Server.runServer_cons, hstep]
      show Server.dbLookup
        (Server.runServer (Server.append_value db (strUpper t) c)
          (cs.map fun c2 => (QType.aaaa, c2 ++ 46 :: t))) (strUpper t) = _
      rw [ih (fun x hx => hcs x (List.mem_cons_of_mem c hx)) hcs0]
      rw [Server.append_value, Server.dbLookup_insert_self]
      simp [List.append_assoc]

theorem upload_spec (db : Server.Database) (id : Nat) (m : Message)
    (hid : id < 65536)
    (hkey : ∀ b ∈ m.key, b < 128)
    (hval : ∀ b ∈ m.value, b < 256)
    (hklen : m.key.length < 18446744073709551616)
    (hvlen : m.value.length < 18446744073709551616)
    (hfresh : Server.dbLookup db (strUpper (hexLower id)) = none) :
    Server.dbLookup (Server.runServer db (Client.uploadQueries id m)) (strUpper m.key) =
      some (Client.encodePayload m) := by
  have hkb : ∀ b ∈ m.key, b < 256 := fun b hb => by have := hkey b hb; omega
  have hencne : Client.encodePayload m ≠ [] :=
    b32enc_ne_nil _ (serMessage_ne_nil m)
  have hd5 : (Client.domainSuffix id).length ≤ 5 := by
    have := hexLower_length_le id hid
    simp only [Client.domainSuffix, List.length_cons]
    omega
  have hcs := b32enc_chunk_props (Client.MAX_FQDN - (Client.domainSuffix id).length)
    (serMessage m)
  have hcne : chunksOf (Client.MAX_FQDN - (Client.domainSuffix id).length)
      (Client.encodePayload m) ≠ [] :=
    chunksOf_ne_nil _ _ hencne
  have hqs : Client.uploadQueries id m =
      ((chunksOf (Client.MAX_FQDN - (Client.domainSuffix id).length)
        (b32enc (serMessage m))).map
          fun c => (QType.aaaa, c ++ 46 :: hexLower id)) ++
        [(QType.a, hexLower id)] := by
    simp only [Client.uploadQueries, Client.chunkNames, Client.commitName,
      Client.encodePayload, Client.domainSuffix, List.map_map]
    rfl
  rw [hqs, Server.runServer_append]
  have hacc := runServer_chunks (hexLower id) (hexLower_not_mem_dot id) _ hcs
    (by rw [show Client.encodePayload m = b32enc (serMessage m) from rfl] at hcne
        exact hcne) db
  rw [hfresh] at hacc
  have hflat : (chunksOf (Client.MAX_FQDN - (Client.domainSuffix id).length)
      (b32enc (serMessage m))).flatten = b32enc (serMessage m) := by
    refine chunksOf_flatten _ ?_ _
    simp only [Client.MAX_FQDN]
    omega
  rw [hflat] at hacc
  simp only [Option.getD_none, List.nil_append] at hacc
  rw [Server.runServer_cons, Server.runServer_nil]
  have hcommit := Server.parse_a_query_ok
    (Server.runServer db ((chunksOf (Client.MAX_FQDN - (Client.domainSuffix id).length)
      (b32enc (serMessage m))).map fun c => (QType.aaaa, c ++ 46 :: hexLower id)))
    (hexLower id) (b32enc (serMessage m)) (serMessage m) m
    hacc
    (b32dec_b32enc _ (serMessage_bytes m hkb hval))
    (deserMessage_serMessage m hklen hvlen)
  rw [show Server.handleQuery
      (Server.runServer db ((chunksOf (Client.MAX_FQDN - (Client.domainSuffix id).length)
        (b32enc (serMessage m))).map fun c => (QType.aaaa, c ++ 46 :: hexLower id)))
      QType.a (hexLower id) =
      Server.parse_a_query
        (Server.runServer db ((chunksOf (Client.MAX_FQDN - (Client.domainSuffix id).length)
          (b32enc (serMessage m))).map fun c => (QType.aaaa, c ++ 46 :: hexLower id)))
        (hexLower id) from rfl, hcommit]
  show Server.dbLookup (Server.dbInsert _ (strUpper m.key) _) (strUpper m.key) = _
  rw [Server.dbLookup_insert_self]
  rfl

/-! ## Lemmas: the download pagination loop -/

theorem collectGo_succ (fuel : Nat) (db : Server.Database) (key : Str) :
    Client.collectGo (fuel + 1) db key =
      if (Server.txtStep db key).2.length < 255 then
        some ((Server.txtStep db key).2, (Server.txtStep db key).1)
      else
        match Client.collectGo fuel (Server.txtStep db key).1 key with
        | none => none
        | some (rest, db2) => some ((Server.txtStep db key).2 ++ rest, db2) := rfl

theorem collectGo_unfold (fuel : Nat) (db : Server.Database) (key : Str)
    (db1 : Server.Database) (txt : Str) (h : Server.txtStep db key = (db1, txt)) :
    Client.collectGo (fuel + 1) db key =
      if txt.length < 255 then some (txt, db1)
      else
        match Client.collectGo fuel db1 key with
        | none => none
        | some (rest, db2) => some (txt ++ rest, db2) := by
  rw [collectGo_succ, h]

theorem collect_spec : ∀ (n : Nat) (db : Server.Database) (key value : Str),
    value.length = n → strUpper key = key → Server.dbLookup db key = some value →
    (Client.collectGo (n / 255 + 2) db key).map Prod.fst =
      some (if 0 < n ∧ n % 255 = 0 then value ++ Server.defaultValue else value) := by
  intro n
  induction n using Nat.strong_induction_on with
  | _ n ih =>
    intro db key value hlen hkup hlk
    have hlk2 : Server.dbLookup db (strUpper key) = some value := by
      rw [hkup]
      exact hlk
    have hts := Server.txtStep_present db key value hlk2
    rw [hkup] at hts
    rcases Nat.lt_or_ge n 255 with hn | hn
    · have hmin : min value.length 255 = value.length := by omega
      rw [hmin] at hts
      rw [if_pos (List.drop_length value), List.take_length] at hts
      show (Client.collectGo (n / 255 + 1 + 1) db key).map Prod.fst = _
      rw [collectGo_unfold _ db key _ _ hts]
      rw [if_pos (show value.length < 255 by omega)]
      rw [if_neg (show ¬(0 < n ∧ n % 255 = 0) by omega)]
      simp
    · rcases Nat.eq_or_lt_of_le hn with heq | hgt
      · subst heq
        have hmin : min value.length 255 = 255 := by omega
        rw [hmin] at hts
        have hdrop : value.drop 255 = [] := List.drop_eq_nil_of_le (by omega)
        rw [if_pos hdrop] at hts
        have htake : value.take 255 = value := List.take_of_length_le (by omega)
        rw [htake] at hts
        show (Client.collectGo (255 / 255 + 1 + 1) db key).map Prod.fst = _
        rw [collectGo_unfold _ db key _ _ hts]
        rw [if_neg (show ¬value.length < 255 by omega)]
        have habs := Server.txtStep_absent (Server.dbErase db key) key
          (by rw [hkup]; exact Server.dbLookup_erase_self db key)
        have hinner : Client.collectGo (255 / 255 + 1) (Server.dbErase db key) key =
            some (Server.defaultValue, Server.dbErase db key) := by
          rw [collectGo_unfold _ _ key _ _ habs]
          rw [if_pos (show Server.defaultValue.length < 255 by decide)]
        rw [hinner]
        simp only [Option.map]
        norm_num
      · have hmin : min value.length 255 = 255 := by omega
        rw [hmin] at hts
        have hdropne : value.drop 255 ≠ [] := by
          intro hc
          have hcl := congrArg List.length hc
          simp only [List.length_drop, List.length_nil] at hcl
          omega
        rw [if_neg hdropne] at hts
        have htl : (value.take 255).length = 255 := by
          rw [List.length_take]
          omega
        show (Client.collectGo (n / 255 + 1 + 1) db key).map Prod.fst = _
        rw [collectGo_unfold _ db key _ _ hts]
        rw [if_neg (show ¬(value.take 255).length < 255 by rw [htl]; omega)]
        have hlkrem : Server.dbLookup
            (Server.set_value (Server.dbErase db key) key (value.drop 255)) key =
            some (value.drop 255) := Server.dbLookup_insert_self _ _ _
        have hrl : (value.drop 255).length = n - 255 := by
          rw [List.length_drop]
          omega
        have hrec := ih (n - 255) (by omega)
          (Server.set_value (Server.dbErase db key) key (value.drop 255)) key
          (value.drop 255) hrl hkup hlkrem
        have hfuel : (n - 255) / 255 + 2 = n / 255 + 1 := by omega
        rw [hfuel] at hrec
        rcases hcg : Client.collectGo (n / 255 + 1)
            (Server.set_value (Server.dbErase db key) key (value.drop 255)) key with
          _ | pr
        · rw [hcg] at hrec
          simp at hrec
        · rcases pr with ⟨rest, db2⟩
          rw [hcg] at hrec
          simp only [Option.map] at hrec
          injection hrec with hrest
          simp only [Option.map]
          rw [hrest]
          by_cases hmod : n % 255 = 0
          · rw [if_pos (show 0 < n - 255 ∧ (n - 255) % 255 = 0 by omega)]
            rw [if_pos (show 0 < n ∧ n % 255 = 0 by omega)]
            rw [← List.append_assoc, List.take_append_drop]
          · rw [if_neg (show ¬(0 < n - 255 ∧ (n - 255) % 255 = 0) by omega)]
            rw [if_neg (show ¬(0 < n ∧ n % 255 = 0) by omega)]
            rw [List.take_append_drop]

/-! ## Lemmas: the uppercase-keys invariant -/

theorem keyNoLower_strUpper (s : Str) : Server.keyNoLower (strUpper s) := by
  intro b hb
  rcases List.mem_map.mp hb with ⟨a, ha, rfl⟩
  exact byteUpper_not_lower a

theorem getD_mem : ∀ (l : List Str) (n : Nat), n < l.length → l.getD n [] ∈ l := by
  intro l
  induction l with
  | nil => intro n h; simp at h
  | cons a l ih =>
    intro n h
    match n with
    | 0 => exact List.mem_cons_self a l
    | n + 1 =>
      refine List.mem_cons_of_mem a (ih n ?_)
      simp only [List.length_cons] at h
      omega

namespace Server

theorem dbErase_mem (db : Database) (k : Str) (kv : Str × Str)
    (h : kv ∈ dbErase db k) : kv ∈ db := by
  induction db with
  | nil => simpa [dbErase] using h
  | cons kv2 rest ih =>
    simp only [dbErase] at h
    by_cases h2 : kv2.1 = k
    · rw [if_pos h2] at h
      exact List.mem_cons_of_mem kv2 (ih h)
    · rw [if_neg h2] at h
      rcases List.mem_cons.mp h with h3 | h3
      · exact h3 ▸ List.mem_cons_self kv2 rest
      · exact List.mem_cons_of_mem kv2 (ih h3)

theorem dbKeysUpper_erase (db : Database) (k : Str) (h : dbKeysUpper db) :
    dbKeysUpper (dbErase db k) :=
  fun kv hkv => h kv (dbErase_mem db k kv hkv)

theorem dbKeysUpper_insert (db : Database) (k v : Str) (h : dbKeysUpper db)
    (hknl : keyNoLower k) : dbKeysUpper (dbInsert db k v) := by
  intro kv hkv
  rcases List.mem_cons.mp hkv with h2 | h2
  · rw [h2]
    exact hknl
  · exact dbKeysUpper_erase db k h kv h2

theorem handleQuery_keysUpper (db : Database) (t : QType) (q : Str)
    (h : dbKeysUpper db) : dbKeysUpper (handleQuery db t q).1 := by
  match t with
  | QType.a =>
    show dbKeysUpper (parse_a_query db q).1
    rcases hlk : dbLookup db (strUpper q) with _ | v
    · rw [parse_a_query_panic db q hlk]
      exact h
    · rcases hb : b32dec v with _ | d
      · rw [parse_a_query_decode_err db q v hlk (by rw [hb]; rfl)]
        exact dbKeysUpper_erase _ _ h
      · rcases hd : deserMessage d with _ | m2
        · rw [parse_a_query_decode_err db q v hlk (by rw [hb, Option.some_bind]; exact hd)]
          exact dbKeysUpper_erase _ _ h
        · rw [parse_a_query_ok db q v d m2 hlk hb hd]
          exact dbKeysUpper_insert _ _ _ (dbKeysUpper_erase _ _ h) (keyNoLower_strUpper _)
  | QType.aaaa =>
    show dbKeysUpper (parse_aaaa_query db q).1
    by_cases hlen : (splitOnDot (strUpper q)).length < 2
    · rw [parse_aaaa_malformed db q hlen]
      exact h
    · rw [parse_aaaa_wellformed db q hlen]
      refine dbKeysUpper_insert _ _ _ h ?_
      intro b hb
      have hmem : (splitOnDot (strUpper q)).getD 1 [] ∈ splitOnDot (strUpper q) :=
        getD_mem _ 1 (by omega)
      have hbs : b ∈ strUpper q := splitOnDot_mem_subset _ _ hmem b hb
      rcases List.mem_map.mp hbs with ⟨a, ha, rfl⟩
      exact byteUpper_not_lower a
  | QType.txt =>
    show dbKeysUpper (txtStep db q).1
    rcases hlk : dbLookup db (strUpper q) with _ | v
    · rw [txtStep_absent db q hlk]
      exact h
    · rw [txtStep_present db q v hlk]
      show dbKeysUpper (if v.drop (min v.length 255) = [] then dbErase db (strUpper q)
        else set_value (dbErase db (strUpper q)) (strUpper q) (v.drop (min v.length 255)))
      by_cases hrem : v.drop (min v.length 255) = []
      · rw [if_pos hrem]
        exact dbKeysUpper_erase _ _ h
      · rw [if_neg hrem]
        exact dbKeysUpper_insert _ _ _ (dbKeysUpper_erase _ _ h) (keyNoLower_strUpper _)
  | QType.other => exact h

theorem runServer_keysUpper : ∀ (qs : List (QType × Str)) (db : Database),
    dbKeysUpper db → dbKeysUpper (runServer db qs) := by
  intro qs
  induction qs with
  | nil => intro db h; exact h
  | cons tq qs ih =>
    intro db h
    rcases tq with ⟨t, q⟩
    rw [runServer_cons]
    exact ih _ (handleQuery_keysUpper db t q h)

end Server

/-! ## The claims -/

set_option maxRecDepth 10000

/-- C1, counterexample: uploading `Message {key := "K", value := "V"}` with
transaction id 0 does NOT leave the raw value `"V"` under key `"K"`; the commit
handler stores the still-encoded accumulated text instead. -/
theorem c1_counterexample :
    Server.dbLookup (Server.runServer [] (Client.uploadQueries 0 ⟨[75], [86]⟩))
      (strUpper [75]) ≠ some [86] := by decide

/-- C1, amended: sending the chunks of the encoded message for a fresh
transaction id (type-AAAA queries, in order) followed by a commit query (type
A, name = hex id) yields a store entry whose key is the uppercase of `key` and
whose value is the base32 encoding of the bincode serialization of the message
— the accumulated chunk text — overwriting any prior entry for that key
outright; the raw `value` is only recovered by the download decode. -/
theorem c1_amended (db : Server.Database) (id : Nat) (m : Message)
    (hid : id < 65536)
    (hkey : ∀ b ∈ m.key, b < 128)
    (hval : ∀ b ∈ m.value, b < 256)
    (hklen : m.key.length < 18446744073709551616)
    (hvlen : m.value.length < 18446744073709551616)
    (hfresh : Server.dbLookup db (strUpper (hexLower id)) = none) :
    Server.dbLookup (Server.runServer db (Client.uploadQueries id m)) (strUpper m.key) =
      some (Client.encodePayload m) :=
  upload_spec db id m hid hkey hval hklen hvlen hfresh

/-- Witness for C1 at a concrete message, id and empty store. -/
theorem c1_witness :
    Server.dbLookup (Server.runServer [] (Client.uploadQueries 0 ⟨[75], [86]⟩))
      (strUpper [75]) = some (Client.encodePayload ⟨[75], [86]⟩) :=
  c1_amended [] 0 ⟨[75], [86]⟩ (by decide) (by decide) (by decide) (by decide)
    (by decide) (by decide)

/-- C2, counterexample: for a stored value of length exactly 255, the collector
loop's concatenation is NOT the stored value — the extra round-trip returns the
default marker (the entry was removed), not an empty chunk. -/
theorem c2_counterexample :
    (Client.collectGo 3 [([75], List.replicate 255 65)] [75]).map Prod.fst ≠
      some (List.replicate 255 65) := by decide

/-- C2, amended: repeated TXT reads return slices of at most 255 bytes and stop
at the first slice shorter than 255; their concatenation equals the stored
value when the value's length is not a positive multiple of 255, and equals the
value followed by the default marker `AAAA` when it is (the final extra
round-trip finds the entry already removed and serves the marker). -/
theorem c2_amended (db : Server.Database) (key value : Str)
    (hkup : strUpper key = key) (hlk : Server.dbLookup db key = some value) :
    (Client.collectGo (value.length / 255 + 2) db key).map Prod.fst =
      some (if 0 < value.length ∧ value.length % 255 = 0
        then value ++ Server.defaultValue else value) :=
  collect_spec value.length db key value rfl hkup hlk

/-- Witness for C2 at a concrete store and short value. -/
theorem c2_witness :
    (Client.collectGo (([86] : Str).length / 255 + 2) [([75], [86])] [75]).map Prod.fst =
      some (if 0 < ([86] : Str).length ∧ ([86] : Str).length % 255 = 0
        then [86] ++ Server.defaultValue else [86]) :=
  c2_amended [([75], [86])] [75] [86] (by decide) (by decide)

/-- C3: the payload codec is exactly invertible — bincode serialization followed
by base32 encoding, then base32 decoding followed by bincode deserialization,
returns the original message (byte fields, realistic `usize` lengths). -/
theorem c3_roundtrip (m : Message)
    (hkb : ∀ b ∈ m.key, b < 256) (hvb : ∀ b ∈ m.value, b < 256)
    (hklen : m.key.length < 18446744073709551616)
    (hvlen : m.value.length < 18446744073709551616) :
    (b32dec (b32enc (serMessage m))).bind deserMessage = some m :=
  bincode_b32_roundtrip m hkb hvb hklen hvlen

/-- Witness for C3 at a concrete message. -/
theorem c3_witness :
    (b32dec (b32enc (serMessage ⟨[75], [86]⟩))).bind deserMessage =
      some (⟨[75], [86]⟩ : Message) :=
  c3_roundtrip ⟨[75], [86]⟩ (by decide) (by decide) (by decide) (by decide)

/-- C4: every upload chunk query name — chunk text plus `.` plus the hex
transaction id — has length at most 63, because the chunk size is 63 minus the
length of the transaction suffix. -/
theorem c4_chunk_name_length (id : Nat) (m : Message) (hid : id < 65536) :
    ∀ name ∈ Client.chunkNames id m, name.length ≤ 63 := by
  intro name hname
  simp only [Client.chunkNames] at hname
  rcases List.mem_map.mp hname with ⟨c, hc, rfl⟩
  have hclen : c.length ≤ Client.MAX_FQDN - (Client.domainSuffix id).length :=
    chunksOf_mem_length_le _ _ _ hc
  have hd : (Client.domainSuffix id).length ≤ 5 := by
    have := hexLower_length_le id hid
    simp only [Client.domainSuffix, List.length_cons]
    omega
  rw [List.length_append]
  simp only [Client.MAX_FQDN] at hclen
  omega

/-- Witness for C4 at a concrete id and message. -/
theorem c4_witness :
    ((Client.chunkNames 0 ⟨[75], [86]⟩).getD 0 []).length ≤ 63 :=
  c4_chunk_name_length 0 ⟨[75], [86]⟩ (by decide)
    ((Client.chunkNames 0 ⟨[75], [86]⟩).getD 0 []) (by decide)

/-- C5, counterexample: a commit query whose transaction id has no store entry
does NOT end in a caught error — the handler `.unwrap()`s the missing entry and
panics. -/
theorem c5_counterexample :
    Server.handleQs [] [(QType.a, [66])] = ([], Server.Outcome.panicked) := by decide

/-- C5, amended: a commit query whose transaction id HAS an accumulated entry
but whose text fails base32 decoding or bincode deserialization ends in an
error caught at the single-query boundary: the datagram is dropped with no
reply (only the consumed pending entry is gone); a commit for an absent id
instead reaches the `unwrap` panic, as the counterexample shows. -/
theorem c5_amended (db : Server.Database) (q v : Str)
    (hlk : Server.dbLookup db (strUpper q) = some v)
    (hdec : (b32dec v).bind deserMessage = none) :
    Server.handleQs db [(QType.a, q)] =
      (Server.dbErase db (strUpper q), Server.Outcome.dropped) := by
  have h1 : Server.handleQuery db QType.a q =
      (Server.dbErase db (strUpper q), Server.HandlerOut.err) :=
    Server.parse_a_query_decode_err db q v hlk hdec
  simp only [Server.handleQs, h1]

/-- Witness for C5 at a concrete store with an undecodable pending entry. -/
theorem c5_witness :
    Server.handleQs [([66], [48])] [(QType.a, [98])] =
      (Server.dbErase [([66], [48])] (strUpper [98]), Server.Outcome.dropped) :=
  c5_amended [([66], [48])] [98] [48] (by decide) (by decide)

/-- C6: a chunk-write (AAAA) query whose uppercased name splits into fewer than
two labels makes the handler fail; the datagram gets no reply and the store is
left exactly as it was. -/
theorem c6_malformed_no_reply (db : Server.Database) (q : Str)
    (h : (splitOnDot (strUpper q)).length < 2) :
    Server.handleQs db [(QType.aaaa, q)] = (db, Server.Outcome.dropped) := by
  have h1 : Server.handleQuery db QType.aaaa q = (db, Server.HandlerOut.err) :=
    Server.parse_aaaa_malformed db q h
  simp only [Server.handleQs, h1]

/-- Witness for C6: a dotless name against a store with an unrelated entry. -/
theorem c6_witness :
    Server.handleQs [([80], [81])] [(QType.aaaa, [65])] =
      ([([80], [81])], Server.Outcome.dropped) :=
  c6_malformed_no_reply [([80], [81])] [65] (by decide)

/-- C7: a TXT read whose case-folded name has no store entry does not fail: the
server replies with the fixed short literal default marker `AAAA` as the slice,
leaving the store unchanged — absence is indistinguishable from a value equal
to the marker. -/
theorem c7_default_marker (db : Server.Database) (q : Str)
    (h : Server.dbLookup db (strUpper q) = none) :
    Server.handleQs db [(QType.txt, q)] =
      (db, Server.Outcome.replied [Server.HandlerOut.replyTXT Server.defaultValue]) := by
  have h1 : Server.handleQuery db QType.txt q =
      (db, Server.HandlerOut.replyTXT Server.defaultValue) := by
    show Server.parse_txt_query db q = _
    simp only [Server.parse_txt_query, Server.txtStep_absent db q h]
  simp only [Server.handleQs, h1]

/-- Witness for C7 at an empty store. -/
theorem c7_witness :
    Server.handleQs [] [(QType.txt, [75])] =
      ([], Server.Outcome.replied [Server.HandlerOut.replyTXT Server.defaultValue]) :=
  c7_default_marker [] [75] (by decide)

/-- C8: starting from the empty store, after any sequence of queries every key
of every store entry is free of ASCII lowercase letters — every store access
case-folds its key to uppercase first. -/
theorem c8_store_keys_uppercase (qs : List (QType × Str)) :
    Server.dbKeysUpper (Server.runServer [] qs) :=
  Server.runServer_keysUpper qs [] (fun kv hkv => absurd hkv (List.not_mem_nil kv))

/-- C9: the commit handler removes the accumulated transaction entry before
decoding; when decoding fails the error propagates and the entry is not
restored, so the pending upload text is gone after a failed commit. -/
theorem c9_commit_removes_pending (db : Server.Database) (q v : Str)
    (hlk : Server.dbLookup db (strUpper q) = some v)
    (hdec : (b32dec v).bind deserMessage = none) :
    (Server.parse_a_query db q).2 = Server.HandlerOut.err ∧
      Server.dbLookup (Server.parse_a_query db q).1 (strUpper q) = none := by
  rw [Server.parse_a_query_decode_err db q v hlk hdec]
  exact ⟨rfl, Server.dbLookup_erase_self db (strUpper q)⟩

/-- Witness for C9 at a concrete store with an undecodable pending entry. -/
theorem c9_witness :
    (Server.parse_a_query [([66], [48])] [98]).2 = Server.HandlerOut.err ∧
      Server.dbLookup (Server.parse_a_query [([66], [48])] [98]).1 (strUpper [98]) =
        none :=
  c9_commit_removes_pending [([66], [48])] [98] [48] (by decide) (by decide)

/-- C10: the client's TXT-response parser indexes the first answer record
unconditionally — it panics on a reply with zero answers, and returns a string
whenever at least one answer is present. -/
theorem c10_first_answer_panic :
    Client.parse_txt_response [] = Client.ParseResult.panicked ∧
      ∀ (a : Client.RData) (rest : List Client.RData),
        ∃ s, Client.parse_txt_response (a :: rest) = Client.ParseResult.ok s := by
  refine ⟨rfl, ?_⟩
  intro a rest
  cases a with
  | txtRecord strings => exact ⟨_, rfl⟩
  | otherRecord => exact ⟨[], rfl⟩

end DnsKv
